import Mathlib

/-!
Verification of binary.py, a library for reading and writing fixed-width
binary fields against a seekable byte cursor.

The embedding models:
* the two endianness profiles `BIG_ENDIAN` / `LITTLE_ENDIAN` (dicts of
  precompiled `struct.Struct` objects) as `pack` / `unpack` functions
  indexed by a primitive-type tag `Prim` and a `ByteOrder`;
* the byte cursor (`io.BytesIO` semantics used by `Buffer`) as a state
  `BState` of backing bytes plus position, with `read` returning the bytes
  available (possibly fewer than requested) and `write` overwriting in
  place and extending at the end;
* the `_Binary` mixin methods (`peek`, `fill`, `peek_*`/`read_*`/`write_*`,
  the hex and text helpers and `write_length`).

Bytes are `Nat`s (kept below 256 by every encoder); Python ints are `Int`.
Python floats are represented by their IEEE-754 bit patterns: `struct`'s
float32/float64 codecs, restricted to the values representable at the
target width, are exactly the byte (de)serialisation of the bit pattern,
so `PyVal.vfloat` carries the pattern as a `Nat` below `2 ^ 32` or
`2 ^ 64`.  Text encodings and decodings (the Python `codecs` machinery,
external to this library) are passed in as function parameters, with a
Latin-1 instance provided for concrete tests.
-/

inductive ByteOrder
  | be
  | le
deriving DecidableEq, Repr

/-- Big-endian value of a byte list: fold most-significant-first. -/
def bytesToNatBE (bs : List Nat) : Nat :=
  bs.foldl (fun acc b => acc * 256 + b) 0

/-- Big-endian bytes of `n` at width `w` (low byte last). -/
def natToBytesBE : Nat → Nat → List Nat
  | 0, _ => []
  | w + 1, n => natToBytesBE w (n / 256) ++ [n % 256]

/-- Byte-order-indexed decode of an unsigned value, as `struct.unpack`
does for the `>`/`<` format prefixes. -/
def bytesToNat : ByteOrder → List Nat → Nat
  | ByteOrder.be, bs => bytesToNatBE bs
  | ByteOrder.le, bs => bytesToNatBE bs.reverse

/-- Byte-order-indexed encode of an unsigned value at width `w`. -/
def natToBytes : ByteOrder → Nat → Nat → List Nat
  | ByteOrder.be, w, n => natToBytesBE w n
  | ByteOrder.le, w, n => (natToBytesBE w n).reverse

/-- Two's-complement reading of an unsigned `w`-byte value, as the signed
`struct` formats `b`, `h`, `i`, `q` decode. -/
def toSigned (w : Nat) (n : Nat) : Int :=
  if n < 2 ^ (8 * w - 1) then (n : Int) else (n : Int) - 2 ^ (8 * w)

/-- The primitive types of the profile dicts (keys of `BIG_ENDIAN` /
`LITTLE_ENDIAN` other than `symbol`). -/
inductive Prim
  | bool
  | byte
  | ubyte
  | short
  | ushort
  | int
  | uint
  | float
  | long
  | ulong
  | double
deriving DecidableEq, Repr

/-- Classification of the `struct` format character of each type. -/
inductive Kind
  | kbool
  | ksigned
  | kunsigned
  | kfloat
deriving DecidableEq, Repr

/-- Byte width of each primitive type (`struct.calcsize`). -/
def width : Prim → Nat
  | Prim.bool => 1
  | Prim.byte => 1
  | Prim.ubyte => 1
  | Prim.short => 2
  | Prim.ushort => 2
  | Prim.int => 4
  | Prim.uint => 4
  | Prim.float => 4
  | Prim.long => 8
  | Prim.ulong => 8
  | Prim.double => 8

def kind : Prim → Kind
  | Prim.bool => Kind.kbool
  | Prim.byte => Kind.ksigned
  | Prim.ubyte => Kind.kunsigned
  | Prim.short => Kind.ksigned
  | Prim.ushort => Kind.kunsigned
  | Prim.int => Kind.ksigned
  | Prim.uint => Kind.kunsigned
  | Prim.float => Kind.kfloat
  | Prim.long => Kind.ksigned
  | Prim.ulong => Kind.kunsigned
  | Prim.double => Kind.kfloat

/-- Python values fed to / produced by the codec: bools, ints, floats
(by IEEE bit pattern) and strings (for kind-mismatch errors). -/
inductive PyVal
  | vbool (b : Bool)
  | vint (i : Int)
  | vfloat (bits : Nat)
  | vstr (s : String)
deriving DecidableEq, Repr

/-- Python truthiness, used by the `?` format's pack. -/
def truthy : PyVal → Bool
  | PyVal.vbool b => b
  | PyVal.vint i => decide (i ≠ 0)
  | PyVal.vfloat bits => decide (bits ≠ 0 ∧ bits ≠ 2 ^ 63)
  | PyVal.vstr s => decide (s ≠ "")

/-- Integer view of a value, as `struct`'s integer formats accept
(`bool` is an `int` subclass in Python; other kinds raise). -/
def intValOf : PyVal → Option Int
  | PyVal.vbool b => some (if b then 1 else 0)
  | PyVal.vint i => some i
  | _ => none

/-- Float-bit-pattern view of a value; non-floats raise in the float
formats (int-to-float conversion is outside the modelled value range). -/
def floatBitsOf : PyVal → Option Nat
  | PyVal.vfloat bits => some bits
  | _ => none

/-- Value is in the representable range of type `t`. -/
def inRange (t : Prim) (v : PyVal) : Bool :=
  match kind t, v with
  | Kind.kbool, PyVal.vbool _ => true
  | Kind.ksigned, PyVal.vint i =>
      decide (-(2 ^ (8 * width t - 1)) ≤ i) && decide (i < 2 ^ (8 * width t - 1))
  | Kind.kunsigned, PyVal.vint i =>
      decide (0 ≤ i) && decide (i < 2 ^ (8 * width t))
  | Kind.kfloat, PyVal.vfloat bits => decide (bits < 2 ^ (8 * width t))
  | _, _ => false

/-- `self.endian[t].pack`: encode a value to bytes, `none` when Python's
`struct.error` (out of range or wrong kind) would be raised. -/
def pack (t : Prim) (order : ByteOrder) (v : PyVal) : Option (List Nat) :=
  match kind t with
  | Kind.kbool => some [if truthy v then 1 else 0]
  | Kind.ksigned =>
      (intValOf v).bind fun i =>
        if -(2 ^ (8 * width t - 1)) ≤ i ∧ i < 2 ^ (8 * width t - 1) then
          some (natToBytes order (width t) (i % 2 ^ (8 * width t)).toNat)
        else none
  | Kind.kunsigned =>
      (intValOf v).bind fun i =>
        if 0 ≤ i ∧ i < 2 ^ (8 * width t) then
          some (natToBytes order (width t) i.toNat)
        else none
  | Kind.kfloat =>
      (floatBitsOf v).bind fun bits =>
        if bits < 2 ^ (8 * width t) then
          some (natToBytes order (width t) bits)
        else none

/-- `self.endian[t].unpack`: decode bytes to a value; `struct.error`
(`none`) when the byte count differs from the format's width. -/
def unpack (t : Prim) (order : ByteOrder) (bs : List Nat) : Option PyVal :=
  if bs.length = width t then
    match kind t with
    | Kind.kbool => some (PyVal.vbool (decide (bs.headD 0 ≠ 0)))
    | Kind.ksigned => some (PyVal.vint (toSigned (width t) (bytesToNat order bs)))
    | Kind.kunsigned => some (PyVal.vint (bytesToNat order bs))
    | Kind.kfloat => some (PyVal.vfloat (bytesToNat order bs))
  else none

theorem width_pos (t : Prim) : 0 < width t := by
  cases t <;> decide

theorem natToBytesBE_length (w n : Nat) : (natToBytesBE w n).length = w := by
  induction w generalizing n with
  | zero => rfl
  | succ w ih => simp [natToBytesBE, ih]

theorem natToBytes_length (order : ByteOrder) (w n : Nat) :
    (natToBytes order w n).length = w := by
  cases order <;> simp [natToBytes, natToBytesBE_length]

theorem bytesToNatBE_natToBytesBE (w : Nat) :
    ∀ n : Nat, n < 2 ^ (8 * w) → bytesToNatBE (natToBytesBE w n) = n := by
  induction w with
  | zero =>
    intro n h
    simp only [Nat.mul_zero, pow_zero, Nat.lt_one_iff] at h
    simp [natToBytesBE, bytesToNatBE, h]
  | succ w ih =>
    intro n h
    have hdiv : n / 256 < 2 ^ (8 * w) := by
      have hpow : 2 ^ (8 * (w + 1)) = 2 ^ (8 * w) * 256 := by
        rw [Nat.mul_succ, pow_add]
        norm_num
      rw [hpow, Nat.mul_comm] at h
      exact Nat.div_lt_of_lt_mul h
    have := ih (n / 256) hdiv
    simp only [natToBytesBE, bytesToNatBE, List.foldl_append, List.foldl_cons,
      List.foldl_nil] at *
    rw [this]
    omega

theorem bytesToNat_natToBytes (order : ByteOrder) (w n : Nat) (h : n < 2 ^ (8 * w)) :
    bytesToNat order (natToBytes order w n) = n := by
  cases order <;>
    simp [bytesToNat, natToBytes, List.reverse_reverse, bytesToNatBE_natToBytesBE w n h]


theorem toSigned_emod (w : Nat) (hw : 0 < w) (i : Int)
    (h1 : -(2 ^ (8 * w - 1)) ≤ i) (h2 : i < 2 ^ (8 * w - 1)) :
    toSigned w ((i % 2 ^ (8 * w)).toNat) = i := by
  have hsplit : 8 * w = (8 * w - 1) + 1 := by omega
  have hK : (2 : Int) ^ (8 * w) = 2 * 2 ^ (8 * w - 1) := by
    conv_lhs => rw [hsplit]
    rw [pow_succ]
    ring
  have hHpos : (0 : Int) < 2 ^ (8 * w - 1) := by positivity
  have hHcast : ((2 ^ (8 * w - 1) : Nat) : Int) = 2 ^ (8 * w - 1) := by
    push_cast
    ring
  have hKcast : ((2 ^ (8 * w) : Nat) : Int) = 2 ^ (8 * w) := by
    push_cast
    ring
  unfold toSigned
  rcases le_or_lt 0 i with hpos | hneg
  · have hm : i % 2 ^ (8 * w) = i := Int.emod_eq_of_lt hpos (by omega)
    rw [hm]
    have hcond : i.toNat < 2 ^ (8 * w - 1) := by omega
    rw [if_pos hcond]
    omega
  · have hm : i % 2 ^ (8 * w) = i + 2 ^ (8 * w) := by
      have hshift : (i + 2 ^ (8 * w)) % 2 ^ (8 * w) = i % 2 ^ (8 * w) := by
        have := @Int.add_mul_emod_self_left i ((2 : Int) ^ (8 * w)) 1
        simp only [mul_one] at this
        exact this
      rw [← hshift]
      exact Int.emod_eq_of_lt (by omega) (by omega)
    rw [hm]
    have hcond : ¬ (i + 2 ^ (8 * w)).toNat < 2 ^ (8 * w - 1) := by omega
    rw [if_neg hcond]
    omega

/-- Cursor state of an in-memory `Buffer` (`io.BytesIO`): backing bytes
plus current position. -/
structure BState where
  data : List Nat
  pos : Nat
deriving DecidableEq, Repr

namespace Binary

/-- `tell()`: current position. -/
def tell (st : BState) : Nat :=
  st.pos

/-- `seek(p)`: move to absolute position `p`. -/
def seek (st : BState) (p : Nat) : BState :=
  { data := st.data, pos := p }

/-- `read(length)`: return up to `length` bytes from the current position
(fewer when the stream ends first) and advance by the bytes returned. -/
def read (st : BState) (length : Nat) : List Nat × BState :=
  let chunk := (st.data.drop st.pos).take length
  (chunk, { data := st.data, pos := st.pos + chunk.length })

/-- `write(bs)`: overwrite bytes at the current position, extending the
backing store at the end (zero-filling any gap past the end). -/
def write (st : BState) (bs : List Nat) : BState :=
  let padded := st.data ++ List.replicate (st.pos - st.data.length) 0
  { data := padded.take st.pos ++ bs ++ padded.drop (st.pos + bs.length),
    pos := st.pos + bs.length }

/-- `fill(length, value)`: `self.write(value * length)`, Python byte-string
repetition being `length` concatenated copies of `value`. -/
def fill (st : BState) (length : Nat) (value : List Nat) : BState :=
  write st (List.flatten (List.replicate length value))

/-- `peek(length)`: read, then seek back to the recorded position and
return what was read. -/
def peek (st : BState) (length : Nat) : List Nat × BState :=
  let position := tell st
  let r := read st length
  (r.fst, seek r.snd position)

/-- The `peek_T` family: `self.endian[T].unpack(self.peek(width))[0]`,
with `none` for the propagated `struct.error`. -/
def peekPrim (t : Prim) (order : ByteOrder) (st : BState) : Option PyVal × BState :=
  let r := peek st (width t)
  (unpack t order r.fst, r.snd)

/-- The `read_T` family: `self.endian[T].unpack(self.read(width))[0]`. -/
def readPrim (t : Prim) (order : ByteOrder) (st : BState) : Option PyVal × BState :=
  let r := read st (width t)
  (unpack t order r.fst, r.snd)

/-- The `write_T` family: `self.write(self.endian[T].pack(data))`; a
`struct.error` in `pack` propagates before `write` runs, so the buffer is
untouched (`none`). -/
def writePrim (t : Prim) (order : ByteOrder) (v : PyVal) (st : BState) : Option BState :=
  (pack t order v).map (write st)

/-- Lowercase hex digit of `n < 16` (`binascii.hexlify` output alphabet). -/
def hexDigit (n : Nat) : Char :=
  if n < 10 then Char.ofNat (48 + n) else Char.ofNat (87 + n)

/-- `binascii.hexlify(bs).decode()`: two lowercase hex digits per byte. -/
def hexlify (bs : List Nat) : String :=
  String.mk (List.flatten (bs.map fun b => [hexDigit (b / 16), hexDigit (b % 16)]))

/-- Value of one hex digit character, upper or lower case. -/
def hexVal (c : Char) : Option Nat :=
  if 48 ≤ c.toNat ∧ c.toNat ≤ 57 then some (c.toNat - 48)
  else if 97 ≤ c.toNat ∧ c.toNat ≤ 102 then some (c.toNat - 87)
  else if 65 ≤ c.toNat ∧ c.toNat ≤ 70 then some (c.toNat - 55)
  else none

/-- `binascii.unhexlify` on a character list: pairs of hex digits; fails
on odd length or a non-hex character. -/
def unhexChars : List Char → Option (List Nat)
  | [] => some []
  | [_] => none
  | c1 :: c2 :: rest =>
      (hexVal c1).bind fun h =>
        (hexVal c2).bind fun l =>
          (unhexChars rest).map fun r => (h * 16 + l) :: r

/-- `binascii.unhexlify(s.encode())` as used by `write_hex` and
`Buffer.from_hex`. -/
def unhexlify (s : String) : Option (List Nat) :=
  unhexChars s.toList

/-- `read_hex(length)`: hexlify what `read` returns. -/
def read_hex (st : BState) (length : Nat) : String × BState :=
  let r := read st length
  (hexlify r.fst, r.snd)

/-- `peek_hex(length)`: hexlify what `peek` returns. -/
def peek_hex (st : BState) (length : Nat) : String × BState :=
  let r := peek st length
  (hexlify r.fst, r.snd)

/-- Python `data.index(chr(0))`: index of the first NUL character. -/
def indexOfNul : List Char → Option Nat
  | [] => none
  | c :: rest =>
      if c = Char.ofNat 0 then some 0
      else (indexOfNul rest).map fun i => i + 1

/-- The `try: data = data[:data.index(chr(0))] except ValueError: pass`
block of `read_text` / `peek_text`. -/
def truncNul (s : List Char) : List Char :=
  match indexOfNul s with
  | some i => s.take i
  | none => s

/-- `read_text(length, encoding, error)`: decode what `read` returns with
the caller-chosen codec `dec` (`none` models a strict-mode
`UnicodeDecodeError`), then truncate at the first NUL. -/
def read_text (dec : List Nat → Option (List Char)) (st : BState) (length : Nat) :
    Option (List Char) × BState :=
  let r := read st length
  ((dec r.fst).map truncNul, r.snd)

/-- `peek_text(length, encoding, error)`: same on `peek`. -/
def peek_text (dec : List Nat → Option (List Char)) (st : BState) (length : Nat) :
    Option (List Char) × BState :=
  let r := peek st length
  ((dec r.fst).map truncNul, r.snd)

/-- `struct.pack('{sym}{n}s', d)`: a fixed `n`-byte string field, NUL
padded when short and truncated when long (byte order is irrelevant to
the `s` format). -/
def packFixed (n : Nat) (d : List Nat) : List Nat :=
  d.take n ++ List.replicate (n - d.length) 0

/-- `write_length(data, length)`: pack into a fixed field when a length
is given, else write the bytes as they are. -/
def write_length (st : BState) (d : List Nat) (length : Option Nat) : BState :=
  match length with
  | some n => write st (packFixed n d)
  | none => write st d

/-- `write_hex(data, length)`: unhexlify then `write_length`; an invalid
hex string raises (`none`) before anything is written. -/
def write_hex (st : BState) (s : String) (length : Option Nat) : Option BState :=
  (unhexlify s).map fun d => write_length st d length

/-- `write_text(data, encoding, length)`: encode with the caller-chosen
codec then `write_length`. -/
def write_text (enc : List Char → List Nat) (st : BState) (s : List Char)
    (length : Option Nat) : BState :=
  write_length st (enc s) length

/-- The iso-8859-1 codec on its valid range: one byte per character,
the character's code point. -/
def latin1Encode (cs : List Char) : List Nat :=
  cs.map fun c => c.toNat

/-- Strict iso-8859-1 decoding: every byte below 256 maps to the
character with that code point. -/
def latin1Decode (bs : List Nat) : Option (List Char) :=
  if bs.all fun b => b < 256 then some (bs.map fun b => Char.ofNat b) else none

end Binary

theorem natCast_two_pow (k : Nat) : ((2 ^ k : Nat) : Int) = 2 ^ k := by
  push_cast
  ring

/-- Claim C1: for every primitive type in the profile dicts, both byte
orders, and every value in the type's representable range (boundaries
included), decoding the bytes produced by encoding the value yields the
value again. -/
theorem decode_encode_roundtrip (t : Prim) (order : ByteOrder) (v : PyVal)
    (h : inRange t v = true) :
    (pack t order v).bind (unpack t order) = some v := by
  have hw := width_pos t
  rcases hk : kind t with _ | _ | _ | _
  · have hw1 : width t = 1 := by
      revert hk
      cases t <;> decide
    cases v with
    | vbool b =>
      cases b <;>
        simp [pack, unpack, hk, hw1, truthy, bytesToNat, bytesToNatBE]
    | vint i => simp [inRange, hk] at h
    | vfloat bits => simp [inRange, hk] at h
    | vstr s => simp [inRange, hk] at h
  · cases v with
    | vbool b => simp [inRange, hk] at h
    | vint i =>
      have hbounds : -(2 ^ (8 * width t - 1)) ≤ i ∧ i < 2 ^ (8 * width t - 1) := by
        simpa [inRange, hk] using h
      have hKpos : (0 : Int) < 2 ^ (8 * width t) := by positivity
      have hmlt : (i % 2 ^ (8 * width t)).toNat < 2 ^ (8 * width t) := by
        have h0 := Int.emod_nonneg i (ne_of_gt hKpos)
        have h1 := Int.emod_lt_of_pos i hKpos
        have hKcast := natCast_two_pow (8 * width t)
        omega
      simp only [pack, hk, intValOf, Option.bind_eq_bind, Option.some_bind,
        if_pos hbounds, unpack, natToBytes_length, if_true]
      rw [bytesToNat_natToBytes order (width t) _ hmlt,
        toSigned_emod (width t) hw i hbounds.1 hbounds.2]
    | vfloat bits => simp [inRange, hk] at h
    | vstr s => simp [inRange, hk] at h
  · cases v with
    | vbool b => simp [inRange, hk] at h
    | vint i =>
      have hbounds : 0 ≤ i ∧ i < 2 ^ (8 * width t) := by
        simpa [inRange, hk] using h
      have hmlt : i.toNat < 2 ^ (8 * width t) := by
        have hKcast := natCast_two_pow (8 * width t)
        omega
      simp only [pack, hk, intValOf, Option.bind_eq_bind, Option.some_bind,
        if_pos hbounds, unpack, natToBytes_length, if_true]
      rw [bytesToNat_natToBytes order (width t) _ hmlt]
      congr 1
      congr 1
      omega
    | vfloat bits => simp [inRange, hk] at h
    | vstr s => simp [inRange, hk] at h
  · cases v with
    | vbool b => simp [inRange, hk] at h
    | vint i => simp [inRange, hk] at h
    | vfloat bits =>
      have hlt : bits < 2 ^ (8 * width t) := by
        simpa [inRange, hk] using h
      simp only [pack, hk, floatBitsOf, Option.bind_eq_bind, Option.some_bind,
        if_pos hlt, unpack, natToBytes_length, if_true]
      rw [bytesToNat_natToBytes order (width t) bits hlt]
    | vstr s => simp [inRange, hk] at h

/-- Claim C1 witness: the uint32 boundary value 4294967295 round-trips
under the big-endian profile. -/
theorem decode_encode_roundtrip_witness :
    inRange Prim.uint (PyVal.vint 4294967295) = true ∧
    (pack Prim.uint ByteOrder.be (PyVal.vint 4294967295)).bind
      (unpack Prim.uint ByteOrder.be) = some (PyVal.vint 4294967295) :=
  ⟨by decide, decode_encode_roundtrip Prim.uint ByteOrder.be (PyVal.vint 4294967295) (by decide)⟩

/-- Claim C2: with at least `width t` bytes remaining, `peek_T` leaves the
cursor exactly where it was (so consecutive peeks all return the same
value), a subsequent `read_T` returns that same value, and the read
advances the cursor by exactly `width t`. -/
theorem peek_read_consistency (t : Prim) (order : ByteOrder) (st : BState)
    (h : st.pos + width t ≤ st.data.length) :
    (Binary.peekPrim t order st).snd = st ∧
    Binary.peekPrim t order (Binary.peekPrim t order st).snd =
      Binary.peekPrim t order st ∧
    (∃ v, (Binary.peekPrim t order st).fst = some v ∧
      (Binary.readPrim t order st).fst = some v) ∧
    (Binary.readPrim t order st).snd = { data := st.data, pos := st.pos + width t } := by
  have hlen : ((st.data.drop st.pos).take (width t)).length = width t := by
    simp only [List.length_take, List.length_drop]
    omega
  have hsnd : (Binary.peekPrim t order st).snd = st := by
    obtain ⟨data, pos⟩ := st
    simp [Binary.peekPrim, Binary.peek, Binary.read, Binary.seek, Binary.tell]
  refine ⟨hsnd, by rw [hsnd], ?_, ?_⟩
  · have hp : (Binary.peekPrim t order st).fst =
        unpack t order ((st.data.drop st.pos).take (width t)) := by
      simp [Binary.peekPrim, Binary.peek, Binary.read]
    have hr : (Binary.readPrim t order st).fst =
        unpack t order ((st.data.drop st.pos).take (width t)) := by
      simp [Binary.readPrim, Binary.read]
    rw [hp, hr]
    unfold unpack
    rw [if_pos hlen]
    rcases kind t with _ | _ | _ | _ <;> exact ⟨_, rfl, rfl⟩
  · simp [Binary.readPrim, Binary.read, hlen]

/-- Claim C2 witness: peeking then reading a little-endian ushort at
position 1 of a 3-byte buffer. -/
theorem peek_read_consistency_witness :
    (Binary.peekPrim Prim.ushort ByteOrder.le ⟨[1, 2, 3], 1⟩).snd = ⟨[1, 2, 3], 1⟩ ∧
    Binary.peekPrim Prim.ushort ByteOrder.le
        (Binary.peekPrim Prim.ushort ByteOrder.le ⟨[1, 2, 3], 1⟩).snd =
      Binary.peekPrim Prim.ushort ByteOrder.le ⟨[1, 2, 3], 1⟩ ∧
    (∃ v, (Binary.peekPrim Prim.ushort ByteOrder.le ⟨[1, 2, 3], 1⟩).fst = some v ∧
      (Binary.readPrim Prim.ushort ByteOrder.le ⟨[1, 2, 3], 1⟩).fst = some v) ∧
    (Binary.readPrim Prim.ushort ByteOrder.le ⟨[1, 2, 3], 1⟩).snd =
      { data := [1, 2, 3], pos := 1 + width Prim.ushort } :=
  peek_read_consistency Prim.ushort ByteOrder.le ⟨[1, 2, 3], 1⟩ (by decide)

theorem peek_snd_eq (st : BState) (n : Nat) : (Binary.peek st n).snd = st := by
  obtain ⟨data, pos⟩ := st
  simp [Binary.peek, Binary.read, Binary.seek, Binary.tell]

/-- Claim C6: every peek operation — the typed peek_T family, peek_hex and
peek_text — ends with the cursor exactly where it started, whether the
decode succeeds or fails (`none`); the raw `peek` restores the recorded
position unconditionally, before any decode runs. -/
theorem peek_preserves_cursor :
    (∀ (st : BState) (n : Nat), (Binary.peek st n).snd = st) ∧
    (∀ (t : Prim) (order : ByteOrder) (st : BState), (Binary.peekPrim t order st).snd = st) ∧
    (∀ (st : BState) (n : Nat), (Binary.peek_hex st n).snd = st) ∧
    (∀ (dec : List Nat → Option (List Char)) (st : BState) (n : Nat),
      (Binary.peek_text dec st n).snd = st) :=
  ⟨peek_snd_eq,
   fun t order st => by simp [Binary.peekPrim, peek_snd_eq],
   fun st n => by simp [Binary.peek_hex, peek_snd_eq],
   fun dec st n => by simp [Binary.peek_text, peek_snd_eq]⟩

/-- Claim C3 counterexample: with a single byte remaining, `read_hex(3)`
does not signal end-of-stream — it returns "ff", a value built from the
one truncated byte actually read. -/
theorem read_hex_short_returns_value :
    Binary.read_hex ⟨[255], 0⟩ 3 = ("ff", ⟨[255], 1⟩) := by
  decide

/-- Claim C3 amended: a typed read or peek (read_T / peek_T) on a cursor
with fewer than width T remaining bytes fails and returns no value, and
after two big-endian double reads of the 16-byte example buffer (yielding
the bit patterns of 0.0 and 1.0 and leaving the cursor at 16) a further
read_double fails; read_hex and read_text, however, do not fail on short
input: they return a value built from the bytes actually remaining. -/
theorem end_of_stream_typed_reads :
    (∀ (t : Prim) (order : ByteOrder) (st : BState),
      st.data.length < st.pos + width t →
      (Binary.readPrim t order st).fst = none ∧
      (Binary.peekPrim t order st).fst = none) ∧
    (∀ (st : BState) (n : Nat),
      (Binary.read_hex st n).fst = Binary.hexlify ((st.data.drop st.pos).take n)) ∧
    (∀ (dec : List Nat → Option (List Char)) (st : BState) (n : Nat),
      (Binary.read_text dec st n).fst =
        (dec ((st.data.drop st.pos).take n)).map Binary.truncNul) ∧
    Binary.readPrim Prim.double ByteOrder.be
        ⟨[0, 0, 0, 0, 0, 0, 0, 0, 63, 240, 0, 0, 0, 0, 0, 0], 0⟩ =
      (some (PyVal.vfloat 0), ⟨[0, 0, 0, 0, 0, 0, 0, 0, 63, 240, 0, 0, 0, 0, 0, 0], 8⟩) ∧
    Binary.readPrim Prim.double ByteOrder.be
        ⟨[0, 0, 0, 0, 0, 0, 0, 0, 63, 240, 0, 0, 0, 0, 0, 0], 8⟩ =
      (some (PyVal.vfloat 4607182418800017408),
        ⟨[0, 0, 0, 0, 0, 0, 0, 0, 63, 240, 0, 0, 0, 0, 0, 0], 16⟩) ∧
    (Binary.readPrim Prim.double ByteOrder.be
        ⟨[0, 0, 0, 0, 0, 0, 0, 0, 63, 240, 0, 0, 0, 0, 0, 0], 16⟩).fst = none := by
  have hfail : ∀ (t : Prim) (order : ByteOrder) (st : BState),
      st.data.length < st.pos + width t →
      unpack t order ((st.data.drop st.pos).take (width t)) = none := by
    intro t order st h
    have hwp := width_pos t
    have hne : ((st.data.drop st.pos).take (width t)).length ≠ width t := by
      simp only [List.length_take, List.length_drop]
      omega
    unfold unpack
    rw [if_neg hne]
  refine ⟨?_, ?_, ?_, by decide, by decide, by decide⟩
  · intro t order st h
    constructor
    · simpa [Binary.readPrim, Binary.read] using hfail t order st h
    · simpa [Binary.peekPrim, Binary.peek, Binary.read, Binary.tell, Binary.seek]
        using hfail t order st h
  · intro st n
    simp [Binary.read_hex, Binary.read]
  · intro dec st n
    simp [Binary.read_text, Binary.read]

/-- Claim C3 amended witness: a read_double with no bytes remaining
returns no value. -/
theorem end_of_stream_typed_reads_witness :
    (Binary.readPrim Prim.double ByteOrder.be ⟨[], 0⟩).fst = none :=
  (end_of_stream_typed_reads.1 Prim.double ByteOrder.be ⟨[], 0⟩ (by decide)).1

/-- Claim C8 counterexample: `fill(3, two_byte_value)` writes six bytes —
three concatenated copies of the value — and does not fail, although the
value's size 2 does not divide 3 and six bytes is not the requested 3. -/
theorem fill_multibyte_value_size :
    Binary.fill ⟨[], 0⟩ 3 [171, 205] = ⟨[171, 205, 171, 205, 171, 205], 6⟩ := by
  decide

/-- Claim C8 amended: fill(length, value) always succeeds and writes
`value * length` — `length` concatenated copies of the value, occupying
`length * size(value)` bytes, which is the requested `length` bytes
exactly when the value is a single byte; with the default single zero
byte it writes exactly `length` zero bytes. -/
theorem fill_repetition (st : BState) (n : Nat) (v : List Nat) :
    Binary.fill st n v = Binary.write st (List.flatten (List.replicate n v)) ∧
    (List.flatten (List.replicate n v)).length = n * v.length ∧
    Binary.fill st n [0] = Binary.write st (List.replicate n 0) ∧
    (Binary.fill ⟨[], 0⟩ n [0]).data = List.replicate n 0 := by
  have hflat : ∀ m : Nat, (List.flatten (List.replicate m v)).length = m * v.length := by
    intro m
    induction m with
    | zero => simp
    | succ m ih => simp [List.replicate_succ, ih, Nat.succ_mul]; omega
  have hzero : ∀ m : Nat, List.flatten (List.replicate m ([0] : List Nat)) =
      List.replicate m 0 := by
    intro m
    induction m with
    | zero => rfl
    | succ m ih => simp [List.replicate_succ, ih]
  refine ⟨rfl, hflat n, ?_, ?_⟩
  · simp [Binary.fill, hzero n]
  · simp [Binary.fill, hzero n, Binary.write]

/-- Claim C4: write_length with an explicit length writes exactly that
many bytes — zero-filling when the data is shorter, truncating to the
first `n` bytes when longer; concretely, write_text "ab" with length 4
under a one-byte-per-character encoding writes 61 62 00 00, and
write_hex "0001ff" with length 1 writes exactly the byte 00. -/
theorem write_length_fixed_field (st : BState) (d : List Nat) (n : Nat) :
    (Binary.packFixed n d).length = n ∧
    Binary.write_length st d (some n) = Binary.write st (Binary.packFixed n d) ∧
    (d.length ≤ n → Binary.packFixed n d = d ++ List.replicate (n - d.length) 0) ∧
    (n ≤ d.length → Binary.packFixed n d = d.take n) ∧
    Binary.write_text Binary.latin1Encode ⟨[], 0⟩ ['a', 'b'] (some 4) =
      ⟨[97, 98, 0, 0], 4⟩ ∧
    Binary.write_hex ⟨[], 0⟩ "0001ff" (some 1) = some ⟨[0], 1⟩ := by
  refine ⟨?_, rfl, ?_, ?_, by decide, by decide⟩
  · simp only [Binary.packFixed, List.length_append, List.length_take,
      List.length_replicate]
    omega
  · intro h
    simp [Binary.packFixed, List.take_of_length_le h]
  · intro h
    simp [Binary.packFixed, Nat.sub_eq_zero_of_le h]

/-- Claim C4 witness: the framing branches at concrete inputs — data of
length 2 padded into a 4-byte field and data of length 3 truncated into a
1-byte field. -/
theorem write_length_fixed_field_witness :
    (([97, 98] : List Nat).length ≤ 4 ∧
      Binary.packFixed 4 [97, 98] = [97, 98] ++ List.replicate (4 - ([97, 98] : List Nat).length) 0) ∧
    ((1 : Nat) ≤ ([0, 1, 255] : List Nat).length ∧
      Binary.packFixed 1 [0, 1, 255] = ([0, 1, 255] : List Nat).take 1) :=
  ⟨⟨by decide, (write_length_fixed_field ⟨[], 0⟩ [97, 98] 4).2.2.1 (by decide)⟩,
   ⟨by decide, (write_length_fixed_field ⟨[], 0⟩ [0, 1, 255] 1).2.2.2.1 (by decide)⟩⟩

theorem pack_int_out_of_range (t : Prim) (order : ByteOrder) (i : Int)
    (hk : kind t = Kind.ksigned ∨ kind t = Kind.kunsigned)
    (hr : inRange t (PyVal.vint i) = false) :
    pack t order (PyVal.vint i) = none := by
  rcases hk with hk | hk
  · have hno : ¬(-(2 ^ (8 * width t - 1)) ≤ i ∧ i < 2 ^ (8 * width t - 1)) := by
      rintro ⟨ha, hb⟩
      simp [inRange, hk, ha, hb] at hr
    simp [pack, hk, intValOf, hno]
  · have hno : ¬((0 : Int) ≤ i ∧ i < 2 ^ (8 * width t)) := by
      rintro ⟨ha, hb⟩
      simp [inRange, hk, ha, hb] at hr
    simp [pack, hk, intValOf, hno]

/-- Claim C5: packing an integer outside its type's range fails, packing
a string with any numeric (non-bool) format fails, and a failed pack
means write_T raises before writing — the buffer is untouched; in
particular 128 as int8, -1 as uint8 and 4294967296 as uint32 all fail. -/
theorem write_range_rejection :
    (∀ (t : Prim) (order : ByteOrder) (i : Int),
      kind t = Kind.ksigned ∨ kind t = Kind.kunsigned →
      inRange t (PyVal.vint i) = false → pack t order (PyVal.vint i) = none) ∧
    (∀ (t : Prim) (order : ByteOrder) (s : String),
      kind t ≠ Kind.kbool → pack t order (PyVal.vstr s) = none) ∧
    (∀ (t : Prim) (order : ByteOrder) (v : PyVal) (st : BState),
      pack t order v = none → Binary.writePrim t order v st = none) ∧
    (∀ (order : ByteOrder) (st : BState),
      Binary.writePrim Prim.byte order (PyVal.vint 128) st = none) ∧
    (∀ (order : ByteOrder) (st : BState),
      Binary.writePrim Prim.ubyte order (PyVal.vint (-1)) st = none) ∧
    (∀ (order : ByteOrder) (st : BState),
      Binary.writePrim Prim.uint order (PyVal.vint 4294967296) st = none) := by
  have hstr : ∀ (t : Prim) (order : ByteOrder) (s : String),
      kind t ≠ Kind.kbool → pack t order (PyVal.vstr s) = none := by
    intro t order s hk
    rcases hk' : kind t with _ | _ | _ | _
    · exact absurd hk' hk
    · simp [pack, hk', intValOf]
    · simp [pack, hk', intValOf]
    · simp [pack, hk', floatBitsOf]
  have hwr : ∀ (t : Prim) (order : ByteOrder) (v : PyVal) (st : BState),
      pack t order v = none → Binary.writePrim t order v st = none := by
    intro t order v st h
    simp [Binary.writePrim, h]
  refine ⟨pack_int_out_of_range, hstr, hwr, ?_, ?_, ?_⟩
  · intro order st
    exact hwr _ _ _ _ (pack_int_out_of_range _ _ _ (Or.inl rfl) (by decide))
  · intro order st
    exact hwr _ _ _ _ (pack_int_out_of_range _ _ _ (Or.inr rfl) (by decide))
  · intro order st
    exact hwr _ _ _ _ (pack_int_out_of_range _ _ _ (Or.inr rfl) (by decide))

/-- Claim C5 witness: 128 is outside the signed 8-bit range and its
big-endian pack fails. -/
theorem write_range_rejection_witness :
    (kind Prim.byte = Kind.ksigned ∨ kind Prim.byte = Kind.kunsigned) ∧
    inRange Prim.byte (PyVal.vint 128) = false ∧
    pack Prim.byte ByteOrder.be (PyVal.vint 128) = none :=
  ⟨Or.inl rfl, by decide,
    write_range_rejection.1 Prim.byte ByteOrder.be 128 (Or.inl rfl) (by decide)⟩

/-- Claim C9: the 32-bit value 1 encodes big-endian as 00 00 00 01 and
little-endian as 01 00 00 00 (for both the signed and unsigned 32-bit
formats), each decodes back to 1 under its own profile, and write_uint
writes those byte sequences into the buffer. -/
theorem endian_profiles_value_one :
    pack Prim.uint ByteOrder.be (PyVal.vint 1) = some [0, 0, 0, 1] ∧
    pack Prim.uint ByteOrder.le (PyVal.vint 1) = some [1, 0, 0, 0] ∧
    pack Prim.int ByteOrder.be (PyVal.vint 1) = some [0, 0, 0, 1] ∧
    pack Prim.int ByteOrder.le (PyVal.vint 1) = some [1, 0, 0, 0] ∧
    unpack Prim.uint ByteOrder.be [0, 0, 0, 1] = some (PyVal.vint 1) ∧
    unpack Prim.uint ByteOrder.le [1, 0, 0, 0] = some (PyVal.vint 1) ∧
    unpack Prim.int ByteOrder.be [0, 0, 0, 1] = some (PyVal.vint 1) ∧
    unpack Prim.int ByteOrder.le [1, 0, 0, 0] = some (PyVal.vint 1) ∧
    Binary.writePrim Prim.uint ByteOrder.be (PyVal.vint 1) ⟨[], 0⟩ =
      some ⟨[0, 0, 0, 1], 4⟩ ∧
    Binary.writePrim Prim.uint ByteOrder.le (PyVal.vint 1) ⟨[], 0⟩ =
      some ⟨[1, 0, 0, 0], 4⟩ := by
  decide

/-- Claim C10: under both profiles the bool codec decodes any nonzero
byte (0xFF included, not only 0x01) as True and the byte 00 as False, so
decoding is not injective and re-encoding a decoded bool need not
reproduce the original byte: 0xFF reads as True, which writes back as 01. -/
theorem bool_decode_any_nonzero :
    (∀ (order : ByteOrder) (b : Nat), b ≠ 0 →
      unpack Prim.bool order [b] = some (PyVal.vbool true)) ∧
    (∀ (order : ByteOrder), unpack Prim.bool order [0] = some (PyVal.vbool false)) ∧
    (Binary.readPrim Prim.bool ByteOrder.be ⟨[255], 0⟩).fst = some (PyVal.vbool true) ∧
    (Binary.peekPrim Prim.bool ByteOrder.le ⟨[255], 0⟩).fst = some (PyVal.vbool true) ∧
    (unpack Prim.bool ByteOrder.be [255]).bind (pack Prim.bool ByteOrder.be) =
      some [1] ∧
    (unpack Prim.bool ByteOrder.be [255]).bind (pack Prim.bool ByteOrder.be) ≠
      some [255] := by
  refine ⟨?_, ?_, by decide, by decide, by decide, by decide⟩
  · intro order b hb
    simp [unpack, width, kind, hb]
  · intro order
    cases order <;> decide

/-- Claim C10 witness: the nonzero byte 0xFF decodes as True under the
little-endian profile. -/
theorem bool_decode_any_nonzero_witness :
    unpack Prim.bool ByteOrder.le [255] = some (PyVal.vbool true) :=
  bool_decode_any_nonzero.1 ByteOrder.le 255 (by decide)

theorem truncNul_cons_nul (rest : List Char) :
    Binary.truncNul (Char.ofNat 0 :: rest) = [] := by
  simp [Binary.truncNul, Binary.indexOfNul]

theorem truncNul_cons (c : Char) (rest : List Char) (hc : c ≠ Char.ofNat 0) :
    Binary.truncNul (c :: rest) = c :: Binary.truncNul rest := by
  unfold Binary.truncNul
  simp only [Binary.indexOfNul, if_neg hc]
  cases hidx : Binary.indexOfNul rest with
  | none => simp [hidx]
  | some i => simp [hidx, List.take_succ_cons]

theorem truncNul_eq_takeWhile (s : List Char) :
    Binary.truncNul s = s.takeWhile fun c => decide (c ≠ Char.ofNat 0) := by
  induction s with
  | nil => rfl
  | cons c rest ih =>
    by_cases hc : c = Char.ofNat 0
    · rw [hc, truncNul_cons_nul]
      simp [List.takeWhile_cons]
    · rw [truncNul_cons c rest hc]
      simp [List.takeWhile_cons, hc, ih]

theorem indexOfNul_eq_none (s : List Char) (h : Char.ofNat 0 ∉ s) :
    Binary.indexOfNul s = none := by
  induction s with
  | nil => rfl
  | cons c rest ih =>
    simp only [List.mem_cons, not_or] at h
    have hc : ¬c = Char.ofNat 0 := fun hcc => h.1 hcc.symm
    simp [Binary.indexOfNul, hc, ih h.2]

/-- Claim C7: read_text and peek_text decode the raw bytes with the given
codec and truncate the decoded string at the first embedded NUL,
discarding everything from the NUL onward (equivalently, they keep the
longest NUL-free prefix); with no NUL the full decoded string is
returned; for decoded text "ab\x00cd" the result is "ab". -/
theorem read_text_nul_truncated (dec : List Nat → Option (List Char)) (st : BState)
    (n : Nat) (cs : List Char)
    (h : dec ((st.data.drop st.pos).take n) = some cs) :
    (Binary.read_text dec st n).fst = some (Binary.truncNul cs) ∧
    (Binary.peek_text dec st n).fst = some (Binary.truncNul cs) ∧
    Binary.truncNul cs = cs.takeWhile (fun c => decide (c ≠ Char.ofNat 0)) ∧
    (Char.ofNat 0 ∉ cs → Binary.truncNul cs = cs) ∧
    (cs = ['a', 'b', Char.ofNat 0, 'c', 'd'] → Binary.truncNul cs = ['a', 'b']) := by
  refine ⟨?_, ?_, truncNul_eq_takeWhile cs, ?_, ?_⟩
  · simp [Binary.read_text, Binary.read, h]
  · simp [Binary.peek_text, Binary.peek, Binary.read, Binary.tell, Binary.seek, h]
  · intro hmem
    simp [Binary.truncNul, indexOfNul_eq_none cs hmem]
  · intro hcs
    subst hcs
    decide

/-- Claim C7 witness: reading five Latin-1 bytes 61 62 00 63 64 yields
"ab" — the decoded "ab\x00cd" truncated at the NUL. -/
theorem read_text_nul_truncated_witness :
    (Binary.read_text Binary.latin1Decode ⟨[97, 98, 0, 99, 100], 0⟩ 5).fst =
      some ['a', 'b'] := by
  have h := read_text_nul_truncated Binary.latin1Decode ⟨[97, 98, 0, 99, 100], 0⟩ 5
    ['a', 'b', Char.ofNat 0, 'c', 'd'] (by decide)
  rw [h.1, h.2.2.2.2 rfl]
